import Mathlib

/-!
# Verification of the varlord configuration-resolution engine

This file is a shallow embedding, in Lean 4, of the core of the `varlord`
Python library: the key normalizer (`varlord/sources/base.py`), the priority
policy (`varlord/policy.py`), the resolver (`varlord/resolver.py`), the model
validator (`varlord/model_validation.py`) and the structural mapper
(`varlord/config.py`).  Python dicts are embedded as insertion-ordered
association lists with dict-style assignment (`setA`) and first-match
lookup (`lookupA`); Python values are embedded as the inductive `PVal`
(atoms, dicts, dataclass instances).  Machinery that the claims do not
depend on (logging, help-text formatting) is omitted, as the source guards
it with `try/except ImportError` no-ops.
-/

set_option maxHeartbeats 1000000

namespace Varlord

/-! ## Key normalizer — `varlord/sources/base.py`, `normalize_key`

The Python function lowercases the key (`key.lower()`, embedded per
character with `Char.toLower`, the ASCII plane of Python's `str.lower`)
and then runs `key.replace("__", ".")`, which scans left-to-right and
replaces non-overlapping occurrences of the two-character pattern `"__"`
by `"."`.  `replDU` is that scan. -/

/-- Left-to-right, non-overlapping replacement of `"__"` by `"."`,
embedding Python's `key.replace("__", ".")`. -/
def replDU : List Char → List Char
  | [] => []
  | [c] => [c]
  | a :: b :: rest =>
    if a = '_' ∧ b = '_' then '.' :: replDU rest
    else a :: replDU (b :: rest)

/-- Embedding of `normalize_key` (src/varlord/sources/base.py, lines 13-51):
empty-string guard, lowercase, then replace `"__"` by `"."`. -/
def normalizeKey (key : String) : String :=
  if key = "" then ""
  else String.mk (replDU (key.data.map Char.toLower))

/-- `Char.toLower` is idempotent: lowering an already-lowered character is
the identity. -/
theorem toLower_toLower (c : Char) : c.toLower.toLower = c.toLower := by
  by_cases h : c.toNat ≥ 65 ∧ c.toNat ≤ 90
  · have hvalid : (c.toNat + 32).isValidChar := Or.inl (by omega)
    have h0 : Char.ofNat (c.toNat + 32) = Char.ofNatAux (c.toNat + 32) hvalid := by
      unfold Char.ofNat
      exact dif_pos hvalid
    have htn : (Char.ofNat (c.toNat + 32)).toNat = c.toNat + 32 := by
      rw [h0]; rfl
    have h1 : c.toLower = Char.ofNat (c.toNat + 32) := by
      unfold Char.toLower
      rw [if_pos h]
    rw [h1]
    unfold Char.toLower
    rw [htn, if_neg (by omega)]
  · have h1 : c.toLower = c := by
      unfold Char.toLower
      rw [if_neg h]
    rw [h1, h1]

/-- A character list with no two adjacent underscores. -/
def noDU : List Char → Prop
  | [] => True
  | [_] => True
  | a :: b :: rest => ¬(a = '_' ∧ b = '_') ∧ noDU (b :: rest)

theorem noDU_cons {c : Char} (hc : c ≠ '_') (l : List Char) (hl : noDU l) :
    noDU (c :: l) := by
  cases l with
  | nil => trivial
  | cons x xs => exact ⟨fun h => hc h.1, hl⟩

theorem noDU_tail {a : Char} {l : List Char} (h : noDU (a :: l)) : noDU l := by
  cases l with
  | nil => trivial
  | cons x xs => exact h.2

/-- The head of the replacement scan on a nonempty list is the original
head or a dot. -/
theorem replDU_head (x : Char) (xs : List Char) :
    (replDU (x :: xs)).head? = some x ∨ (replDU (x :: xs)).head? = some '.' := by
  cases xs with
  | nil => left; rfl
  | cons y ys =>
    by_cases h : x = '_' ∧ y = '_'
    · right; simp [replDU, h]
    · left; simp [replDU, h]

/-- The output of the replacement scan contains no two adjacent
underscores. -/
theorem noDU_replDU (l : List Char) : noDU (replDU l) := by
  induction l using replDU.induct with
  | case1 => trivial
  | case2 c => trivial
  | case3 a b rest h ih =>
    simp only [replDU, h, if_true]
    exact noDU_cons (by decide) _ ih
  | case4 a b rest h ih =>
    simp only [replDU, h, if_false]
    have ha : a ≠ '_' ∨ b ≠ '_' := by
      by_contra hc
      push_neg at hc
      exact h ⟨hc.1, hc.2⟩
    rcases ha with ha | hb
    · exact noDU_cons ha _ ih
    · rcases replDU_head b rest with hh | hh <;>
      · cases hr : replDU (b :: rest) with
        | nil => trivial
        | cons z zs =>
          rw [hr] at hh ih
          simp at hh
          subst hh
          refine ⟨fun hcon => ?_, ih⟩
          first
            | exact hb hcon.2
            | exact absurd hcon.2 (by decide)

/-- The replacement scan is the identity on lists with no adjacent
underscores. -/
theorem replDU_eq_self {l : List Char} (h : noDU l) : replDU l = l := by
  induction l using replDU.induct with
  | case1 => rfl
  | case2 c => rfl
  | case3 a b rest hab ih => exact absurd hab h.1
  | case4 a b rest hab ih =>
    simp only [replDU, hab, if_false]
    rw [ih (noDU_tail h)]

/-- Every character of the output of the scan is a character of the input
or a dot. -/
theorem mem_replDU (c : Char) (l : List Char) :
    c ∈ replDU l → c ∈ l ∨ c = '.' := by
  induction l using replDU.induct with
  | case1 => intro h; simp [replDU] at h
  | case2 d => intro h; simp [replDU] at h; simp [h]
  | case3 a b rest hab ih =>
    intro h
    simp only [replDU, if_pos hab, List.mem_cons] at h
    rcases h with h | h
    · right; exact h
    · rcases ih h with h' | h'
      · left; simp [h']
      · right; exact h'
  | case4 a b rest hab ih =>
    intro h
    simp only [replDU, if_neg hab, List.mem_cons] at h
    rcases h with h | h
    · left; simp [h]
    · rcases ih h with h' | h'
      · left; simp [List.mem_cons] at h' ⊢; tauto
      · right; exact h'

theorem map_toLower_replDU_map (l : List Char) :
    (replDU (l.map Char.toLower)).map Char.toLower
      = replDU (l.map Char.toLower) := by
  have h : ∀ a ∈ replDU (l.map Char.toLower), Char.toLower a = id a := by
    intro a ha
    rcases mem_replDU a _ ha with h | h
    · rcases List.mem_map.mp h with ⟨d, _, hd⟩
      rw [← hd]
      exact toLower_toLower d
    · subst h; decide
  rw [List.map_congr_left h, List.map_id]

/-- C7: key normalization is idempotent: for every string `k`,
`normalize(normalize(k)) = normalize(k)`. -/
theorem normalizeKey_idem (k : String) :
    normalizeKey (normalizeKey k) = normalizeKey k := by
  unfold normalizeKey
  by_cases h : k = ""
  · simp [h]
  · simp only [h, if_false]
    set m := k.data.map Char.toLower with hm
    by_cases h2 : String.mk (replDU m) = ""
    · simp [h2]
    · simp only [h2, if_false]
      show String.mk (replDU ((replDU m).map Char.toLower)) = String.mk (replDU m)
      apply congrArg String.mk
      rw [hm, map_toLower_replDU_map,
        replDU_eq_self (noDU_replDU (k.data.map Char.toLower))]

/-- Runs of `n` underscores normalize to `n / 2` dots followed by
`n % 2` underscores (left-to-right non-overlapping scan). -/
theorem replDU_replicate (n : Nat) :
    replDU (List.replicate n '_')
      = List.replicate (n / 2) '.' ++ List.replicate (n % 2) '_' := by
  induction n using Nat.strong_induction_on with
  | _ n ih =>
    match n with
    | 0 => rfl
    | 1 => rfl
    | (m + 2) =>
      have hrep : List.replicate (m + 2) '_' = '_' :: '_' :: List.replicate m '_' := by
        simp [List.replicate]
      rw [hrep]
      simp only [replDU, if_true, and_self, ih m (by omega)]
      have h1 : (m + 2) / 2 = m / 2 + 1 := by omega
      have h2 : (m + 2) % 2 = m % 2 := by omega
      rw [h1, h2]
      simp [List.replicate]

theorem map_toLower_underscores (n : Nat) :
    (List.replicate n '_').map Char.toLower = List.replicate n '_' := by
  rw [List.map_replicate]
  have h : Char.toLower '_' = '_' := by decide
  rw [h]

/-- C8: `normalize` is total (a plain Lean function of type
`String → String`), maps the spec's examples as stated, and on a run of
`n` underscores performs the left-to-right non-overlapping replacement,
yielding `n / 2` dots then `n % 2` underscores. -/
theorem normalizeKey_examples :
    normalizeKey "APP_DB__HOST" = "app_db.host"
    ∧ normalizeKey "APP__DB__HOST" = "app.db.host"
    ∧ normalizeKey "___" = "._"
    ∧ normalizeKey "" = ""
    ∧ ∀ n : Nat, normalizeKey (String.mk (List.replicate n '_'))
        = String.mk (List.replicate (n / 2) '.' ++ List.replicate (n % 2) '_') := by
  refine ⟨by decide, by decide, by decide, by decide, ?_⟩
  intro n
  match n with
  | 0 => rfl
  | (m + 1) =>
    have hne : String.mk (List.replicate (m + 1) '_') ≠ "" := by
      intro hcon
      have : List.replicate (m + 1) '_' = ([] : List Char) :=
        congrArg String.data hcon
      simp at this
    unfold normalizeKey
    simp only [hne, if_false]
    show String.mk (replDU ((List.replicate (m + 1) '_').map Char.toLower))
        = String.mk (List.replicate ((m + 1) / 2) '.' ++ List.replicate ((m + 1) % 2) '_')
    rw [map_toLower_underscores, replDU_replicate]

/-! ## Data model

Python type annotations, dataclass models and runtime values, as far as
the engine inspects them.  A `PyTy` is a declared field type: a plain
(non-generic) type, `NoneType`, a `Union[...]`, or a nested dataclass
model.  A `FieldDef` is one declared dataclass field: its name, declared
type, and the `required` / `optional` metadata flags.  A `PVal` is a
runtime value: an atom (string / int / bool), a Python `dict`, or a
dataclass instance (the constructing model together with the field-name →
value mapping). -/

mutual
inductive PyTy : Type where
  | prim : String → PyTy
  | noneType : PyTy
  | union : List PyTy → PyTy
  | dc : List FieldDef → PyTy
inductive FieldDef : Type where
  | mk : String → PyTy → Bool → Bool → FieldDef
end

def FieldDef.name : FieldDef → String
  | .mk n _ _ _ => n

def FieldDef.ftype : FieldDef → PyTy
  | .mk _ t _ _ => t

def FieldDef.req : FieldDef → Bool
  | .mk _ _ r _ => r

def FieldDef.opt : FieldDef → Bool
  | .mk _ _ _ o => o

inductive PVal : Type where
  | str : String → PVal
  | intv : Int → PVal
  | boolv : Bool → PVal
  | pdict : List (String × PVal) → PVal
  | inst : List FieldDef → List (String × PVal) → PVal

/-- A Python `dict` holding configuration values, embedded as an
insertion-ordered association list. -/
abbrev Dict := List (String × PVal)

/-- Python `d[key]` / `key in d`: first-match association lookup. -/
def lookupA {α : Type} : List (String × α) → String → Option α
  | [], _ => none
  | (k, v) :: rest, key => if k = key then some v else lookupA rest key

/-- Python `d[key] = v`: replace in place if the key is present (keeping
its position), append otherwise. -/
def setA {α : Type} : List (String × α) → String → α → List (String × α)
  | [], key, v => [(key, v)]
  | (k, w) :: rest, key, v =>
    if k = key then (k, v) :: rest else (k, w) :: setA rest key v

/-! ## Deep merge and resolver — `varlord/resolver.py` -/

/-- Python's `isinstance(value, dict)` on an embedded value. -/
def isPDict : PVal → Bool
  | .pdict _ => true
  | _ => false

/-- `key in base and isinstance(base[key], dict)` on an optional lookup
result. -/
def isPDictO : Option PVal → Bool
  | some (.pdict _) => true
  | _ => false

/-- The entry list of a dict value (`[]` on non-dicts; only ever applied
under an `isPDict` guard). -/
def asPDict : PVal → Dict
  | .pdict m => m
  | _ => []

theorem asPDict_sizeOf (v : PVal) : sizeOf (asPDict v) ≤ sizeOf v := by
  cases v <;> simp [asPDict] <;> try omega

/-- Embedding of `Resolver._deep_merge` (src/varlord/resolver.py, lines
124-137): for each key of `update` in order, if the key is in `base` and
both the existing and the incoming value are dicts
(`if key in base and isinstance(base[key], dict) and isinstance(value, dict)`),
merge recursively; otherwise overwrite.  (The Python version mutates
`base` in place; the embedding threads the updated dict through the
iteration.) -/
def dmerge : Dict → Dict → Dict
  | base, [] => base
  | base, (k, v) :: rest =>
    dmerge
      (if isPDictO (lookupA base k) && isPDict v then
        setA base k
          (PVal.pdict (dmerge (asPDict ((lookupA base k).getD (PVal.boolv false)))
            (asPDict v)))
       else setA base k v)
      rest
termination_by _ u => sizeOf u
decreasing_by
  all_goals simp_wf
  all_goals first
    | omega
    | (have h9 := asPDict_sizeOf v
       omega)

/-- A source as the resolver sees it: a stable name and the snapshot its
`load()` returns.  Claims quantify over snapshots, so `load()` is
embedded by its result. -/
structure SourceM : Type where
  name : String
  snapshot : Dict

/-! ## Priority policy — `varlord/policy.py` -/

/-- Glob matching as `PriorityPolicy.get_priority` implements it: the
pattern is turned into a regex by escaping `.` and turning `*` into `.*`,
and then matched with `re.match`, i.e. anchored at the start of the key
with any remainder allowed.  Embedded directly: pattern characters are
literal except `*`, which matches any (possibly empty) stretch of the
key; a fully matched pattern accepts any remaining key suffix. -/
def globMatch : List Char → List Char → Bool
  | [], _ => true
  | c :: ps, key =>
    if c = '*' then
      (List.range (key.length + 1)).any (fun i => globMatch ps (key.drop i))
    else
      match key with
      | [] => false
      | k :: ks => c == k && globMatch ps ks

def globMatchS (pat key : String) : Bool :=
  globMatch pat.data key.data

/-- Embedding of `PriorityPolicy` (src/varlord/policy.py): a default
priority order plus optional per-key overrides, a mapping from glob
pattern to priority list kept in insertion order. -/
structure PriorityPolicy : Type where
  default : List String
  overrides : Option (List (String × List String)) := none

/-- Embedding of `PriorityPolicy.get_priority` (src/varlord/policy.py,
lines 41-57): scan the overrides in insertion order and return the
priority list of the first pattern matching the key; fall back to the
default order.  (Python's `if self.overrides:` treats `None` and the
empty mapping alike; an empty list makes the scan vacuous, giving the
same fallback.) -/
def getPriority (pol : PriorityPolicy) (key : String) : List String :=
  match pol.overrides with
  | none => pol.default
  | some ovs =>
    match ovs.find? (fun pr => globMatchS pr.1 key) with
    | some pr => pr.2
    | none => pol.default

/-- Embedding of the no-policy path of `Resolver.resolve`
(src/varlord/resolver.py, lines 75-93): fold the snapshots into an empty
dict by deep merge, in source-list order.  (The logging block is a
`try/except ImportError` no-op.) -/
def resolveNoPolicy (srcs : List SourceM) : Dict :=
  srcs.foldl (fun result s => dmerge result s.snapshot) []

/-- `all_configs` of `Resolver._resolve_with_policy`: the dict built by
`all_configs[source.name] = source.load()` over the sources in order
(a later duplicate name overwrites the earlier snapshot). -/
def buildConfigs (srcs : List SourceM) : List (String × Dict) :=
  srcs.foldl (fun acc s => setA acc s.name s.snapshot) []

/-- The union of the keys of all snapshots (`all_keys` in
`Resolver._resolve_with_policy`).  Python iterates this as a set, in an
unspecified order; the embedding fixes one enumeration, and the claims
are stated through `lookupA`, which is insensitive to that order. -/
def allKeys (cfgs : List (String × Dict)) : List String :=
  ((cfgs.map (fun p => p.2.map Prod.fst)).flatten).dedup

/-- The inner loop of `Resolver._resolve_with_policy` for one key: walk
the priority names in order and keep overwriting with the value of every
named source that exists and holds the key; `none` when no name applies. -/
def pickByNames (cfgs : List (String × Dict)) (names : List String) (key : String) :
    Option PVal :=
  names.foldl
    (fun acc n =>
      match lookupA cfgs n with
      | some cfg =>
        match lookupA cfg key with
        | some v => some v
        | none => acc
      | none => acc)
    none

/-- Embedding of `Resolver._resolve_with_policy` (src/varlord/resolver.py,
lines 95-122): load all snapshots, collect all keys, and resolve each key
through its priority order. -/
def resolveWithPolicy (pol : PriorityPolicy) (srcs : List SourceM) : Dict :=
  let cfgs := buildConfigs srcs
  (allKeys cfgs).foldl
    (fun result key =>
      match pickByNames cfgs (getPriority pol key) key with
      | some v => setA result key v
      | none => result)
    []

/-- Embedding of `Resolver.resolve` (src/varlord/resolver.py, lines
62-93): dispatch on the presence of a `PriorityPolicy`.  (The `key`
parameter of the Python method is unused on both paths — with no policy,
`_get_source_order` ignores it — so it is not part of the embedding.) -/
def resolve (srcs : List SourceM) (pol : Option PriorityPolicy) : Dict :=
  match pol with
  | some p => resolveWithPolicy p srcs
  | none => resolveNoPolicy srcs

/-! ## Association-list lemmas -/

theorem lookupA_setA_self {α : Type} (d : List (String × α)) (k : String) (v : α) :
    lookupA (setA d k v) k = some v := by
  induction d with
  | nil => simp [setA, lookupA]
  | cons hd tl ih =>
    obtain ⟨k', w⟩ := hd
    by_cases h : k' = k
    · simp [setA, lookupA, h]
    · simp [setA, lookupA, h, ih]

theorem lookupA_setA_ne {α : Type} (d : List (String × α)) (k k' : String) (v : α)
    (h : k ≠ k') : lookupA (setA d k v) k' = lookupA d k' := by
  induction d with
  | nil => simp [setA, lookupA, h]
  | cons hd tl ih =>
    obtain ⟨k0, w⟩ := hd
    by_cases h0 : k0 = k
    · subst h0
      simp [setA, lookupA, h]
    · simp only [setA, if_neg h0]
      by_cases h1 : k0 = k'
      · simp [lookupA, h1]
      · simp [lookupA, h1, ih]

theorem lookupA_eq_none_of_not_mem {α : Type} (d : List (String × α)) (k : String)
    (h : k ∉ d.map Prod.fst) : lookupA d k = none := by
  induction d with
  | nil => rfl
  | cons hd tl ih =>
    obtain ⟨k0, w⟩ := hd
    simp only [List.map_cons, List.mem_cons] at h
    push_neg at h
    simp [lookupA, Ne.symm h.1, ih h.2]

/-! ## Per-key characterization of the deep merge -/

/-- One iteration of the `_deep_merge` loop: what `base` becomes after
processing the single update entry `(k, v)`. -/
def mergeOne (base : Dict) (k : String) (v : PVal) : Dict :=
  if isPDictO (lookupA base k) && isPDict v then
    setA base k
      (PVal.pdict (dmerge (asPDict ((lookupA base k).getD (PVal.boolv false)))
        (asPDict v)))
  else setA base k v

/-- The value a single key carries after a deep merge, as a function of
the two values it carried before: nothing incoming keeps the existing
value, two dicts merge recursively, anything else is overwritten by the
incoming value. -/
def mergeAt (b u : Option PVal) : Option PVal :=
  match u with
  | none => b
  | some v =>
    if isPDictO b && isPDict v then
      some (PVal.pdict (dmerge (asPDict (b.getD (PVal.boolv false))) (asPDict v)))
    else some v

theorem dmerge_nil (base : Dict) : dmerge base [] = base := by
  rw [dmerge.eq_def]

theorem dmerge_cons (base : Dict) (k : String) (v : PVal) (rest : Dict) :
    dmerge base ((k, v) :: rest) = dmerge (mergeOne base k v) rest := by
  rw [dmerge.eq_def, mergeOne]

theorem mergeAt_none_right (b : Option PVal) : mergeAt b none = b := rfl

theorem mergeAt_some_of_not_pdict (b : Option PVal) (v : PVal)
    (h : isPDict v = false) : mergeAt b (some v) = some v := by
  simp [mergeAt, h]

/-- Per-key semantics of `_deep_merge`: for every key, the merged dict
holds exactly `mergeAt` of the two previous values.  The update dict is
assumed to have pairwise-distinct keys, as every Python dict does. -/
theorem lookupA_dmerge :
    ∀ (upd base : Dict) (k : String), (upd.map Prod.fst).Nodup →
      lookupA (dmerge base upd) k = mergeAt (lookupA base k) (lookupA upd k) := by
  intro upd
  induction upd with
  | nil =>
    intro base k _
    simp [dmerge_nil, lookupA, mergeAt_none_right]
  | cons hd tl ih =>
    obtain ⟨k', v'⟩ := hd
    intro base k hnd
    simp only [List.map_cons, List.nodup_cons] at hnd
    obtain ⟨hk', hnd'⟩ := hnd
    rw [dmerge_cons, ih (mergeOne base k' v') k hnd']
    by_cases hkk : k' = k
    · subst hkk
      rw [lookupA_eq_none_of_not_mem tl k' hk']
      rw [mergeAt_none_right]
      simp only [lookupA, if_pos rfl]
      cases hLb : lookupA base k' with
      | none =>
        cases v' <;>
          simp [mergeOne, hLb, mergeAt, isPDictO, isPDict, asPDict, lookupA_setA_self]
      | some b' =>
        cases b' <;> cases v' <;>
          simp [mergeOne, hLb, mergeAt, isPDictO, isPDict, asPDict, lookupA_setA_self]
    · have h1 : lookupA (mergeOne base k' v') k = lookupA base k := by
        cases hLb : lookupA base k' with
        | none =>
          cases v' <;>
            simp [mergeOne, hLb, isPDictO, isPDict, asPDict, lookupA_setA_ne _ _ _ _ hkk]
        | some b' =>
          cases b' <;> cases v' <;>
            simp [mergeOne, hLb, isPDictO, isPDict, asPDict, lookupA_setA_ne _ _ _ _ hkk]
      rw [h1]
      congr 1
      simp [lookupA, hkk]

/-- C1: with no priority policy, `Resolver.resolve()` is the fold of the
sources' snapshots, in source-list order, into an initially empty map by
deep merge; per key the merge keeps the existing value when the incoming
dict lacks the key, merges recursively when both values are nested
dicts, and otherwise lets the incoming value replace the existing one —
in particular, when two sources supply the same key with non-dict
values, the later source's value is returned. -/
theorem resolve_noPolicy_deepMerge :
    (∀ srcs : List SourceM,
        resolve srcs none
          = List.foldl (fun result s => dmerge result s.snapshot) [] srcs)
    ∧ (∀ (base upd : Dict) (k : String), (upd.map Prod.fst).Nodup →
        lookupA (dmerge base upd) k = mergeAt (lookupA base k) (lookupA upd k))
    ∧ (∀ (s1 s2 : SourceM) (k : String) (v1 v2 : PVal),
        (s2.snapshot.map Prod.fst).Nodup →
        lookupA s1.snapshot k = some v1 →
        lookupA s2.snapshot k = some v2 →
        isPDict v1 = false →
        isPDict v2 = false →
        lookupA (resolve [s1, s2] none) k = some v2) := by
  refine ⟨fun srcs => rfl, fun base upd k h => lookupA_dmerge upd base k h, ?_⟩
  intro s1 s2 k v1 v2 hnd h1 h2 hv1 hv2
  show lookupA (dmerge (dmerge [] s1.snapshot) s2.snapshot) k = some v2
  rw [lookupA_dmerge s2.snapshot (dmerge [] s1.snapshot) k hnd, h2,
    mergeAt_some_of_not_pdict _ _ hv2]

/-- Witness for C1 at the spec's own example: `S1 = { x: 1 }`,
`S2 = { x: 2 }`, no policy, and `resolve().x == 2`. -/
theorem resolve_noPolicy_deepMerge_witness :
    lookupA (resolve [SourceM.mk "s1" [("x", PVal.intv 1)],
        SourceM.mk "s2" [("x", PVal.intv 2)]] none) "x"
      = some (PVal.intv 2) :=
  resolve_noPolicy_deepMerge.2.2
    (SourceM.mk "s1" [("x", PVal.intv 1)])
    (SourceM.mk "s2" [("x", PVal.intv 2)])
    "x" (PVal.intv 1) (PVal.intv 2)
    (by simp) rfl rfl rfl rfl

/-! ## C2 — override selection in `PriorityPolicy.get_priority`

The source scans `self.overrides.items()` in insertion order and returns
the priority list of the **first** pattern whose converted regex matches
the key — not of the longest-matching pattern. -/

theorem find?_of_first_match {α : Type} (p : α → Bool) :
    ∀ (l : List α) (i : Nat) (e : α),
      l[i]? = some e → p e = true →
      (∀ j, j < i → ∀ d, l[j]? = some d → p d = false) →
      l.find? p = some e := by
  intro l
  induction l with
  | nil => intro i e h _ _; simp at h
  | cons x xs ih =>
    intro i e hget hp hprev
    cases i with
    | zero =>
      simp at hget
      subst hget
      simp [List.find?_cons_of_pos, hp]
    | succ n =>
      have hx : p x = false := hprev 0 (Nat.succ_pos n) x (by simp)
      rw [List.find?_cons_of_neg _ (by simp [hx])]
      exact ih n e (by simpa using hget) hp
        (fun j hj d hd => hprev (j + 1) (by omega) d (by simpa using hd))

/-- C2, counterexample: with overrides `{"db*": ["a"], "db.h*": ["b"]}`
(in that insertion order) and key `"db.host"`, both patterns match and
`"db.h*"` is strictly longer, yet `get_priority` returns `["a"]`, the
priority list of the first matching pattern, not `["b"]`. -/
theorem getPriority_counterexample :
    globMatchS "db*" "db.host" = true
    ∧ globMatchS "db.h*" "db.host" = true
    ∧ "db*".length < "db.h*".length
    ∧ getPriority (PriorityPolicy.mk ["s0"]
        (some [("db*", ["a"]), ("db.h*", ["b"])])) "db.host" = ["a"]
    ∧ getPriority (PriorityPolicy.mk ["s0"]
        (some [("db*", ["a"]), ("db.h*", ["b"])])) "db.host" ≠ ["b"] := by
  refine ⟨?_, ?_, ?_, ?_, ?_⟩ <;> decide

/-- C2 (amended): for every key, when override patterns of a Priority
Policy match the key, `PriorityPolicy.get_priority` returns the priority
list of the **first matching pattern in the overrides' insertion order**
(not the longest match); the default order is returned exactly when no
override pattern matches the key (or there are no overrides). -/
theorem getPriority_first_match (pol : PriorityPolicy) (key : String) :
    (pol.overrides = none → getPriority pol key = pol.default)
    ∧ (∀ ovs, pol.overrides = some ovs →
        (∀ pr ∈ ovs, globMatchS pr.1 key = false) →
        getPriority pol key = pol.default)
    ∧ (∀ (ovs : List (String × List String)) (i : Nat) (pat : String)
          (pr : List String), pol.overrides = some ovs →
        ovs[i]? = some (pat, pr) →
        globMatchS pat key = true →
        (∀ (j : Nat), j < i → ∀ (pat' : String) (pr' : List String),
          ovs[j]? = some (pat', pr') → globMatchS pat' key = false) →
        getPriority pol key = pr) := by
  refine ⟨?_, ?_, ?_⟩
  · intro h
    simp [getPriority, h]
  · intro ovs h hall
    have hfind : ovs.find? (fun pr => globMatchS pr.1 key) = none :=
      List.find?_eq_none.mpr (fun x hx => by simp [hall x hx])
    simp [getPriority, h, hfind]
  · intro ovs i pat pr h hget hp hprev
    have hfind : ovs.find? (fun e => globMatchS e.1 key) = some (pat, pr) :=
      find?_of_first_match _ ovs i (pat, pr) hget hp
        (fun j hj d hd => hprev j hj d.1 d.2 (by simpa using hd))
    simp [getPriority, h, hfind]

/-- Witness for the amended C2: overrides `{"a*": ["x"], "b*": ["y"]}`
and key `"bob"` — only the second pattern matches, and its priority list
is returned. -/
theorem getPriority_first_match_witness :
    (some [("a*", ["x"]), ("b*", ["y"])] :
        Option (List (String × List String)))
      = some [("a*", ["x"]), ("b*", ["y"])]
    ∧ getPriority (PriorityPolicy.mk ["s0"]
        (some [("a*", ["x"]), ("b*", ["y"])])) "bob" = ["y"] :=
  ⟨rfl,
    (getPriority_first_match
        (PriorityPolicy.mk ["s0"] (some [("a*", ["x"]), ("b*", ["y"])])) "bob").2.2
      [("a*", ["x"]), ("b*", ["y"])] 1 "b*" ["y"] rfl (by decide) (by decide)
      (by
        intro j hj pat' pr' hd
        interval_cases j
        simp only [List.getElem?_cons_zero, Option.some.injEq, Prod.mk.injEq] at hd
        obtain ⟨h1, h2⟩ := hd
        subst h1
        decide)⟩

/-! ## C3 / C9 — the policy path of `Resolver.resolve` -/

/-- The names of a priority order that actually apply for a key: names
under which `all_configs` holds a snapshot that contains the key. -/
def applNames (cfgs : List (String × Dict)) (names : List String) (key : String) :
    List String :=
  names.filter (fun n => ((lookupA cfgs n).bind (fun cfg => lookupA cfg key)).isSome)

theorem mem_lookupA {α : Type} (l : List (String × α)) (k : String) (v : α) :
    lookupA l k = some v → (k, v) ∈ l := by
  induction l with
  | nil => intro h; simp [lookupA] at h
  | cons hd tl ih =>
    obtain ⟨k0, w⟩ := hd
    intro h
    by_cases h0 : k0 = k
    · subst h0
      simp [lookupA] at h
      simp [h]
    · simp [lookupA, h0] at h
      simp [ih h]

theorem pickFold_eq (cfgs : List (String × Dict)) (key : String) :
    ∀ (names : List String) (a : Option PVal),
      List.foldl (fun acc n =>
        match lookupA cfgs n with
        | some cfg =>
          match lookupA cfg key with
          | some v => some v
          | none => acc
        | none => acc) a names
      = (match (applNames cfgs names key).getLast? with
         | some n => (lookupA cfgs n).bind (fun cfg => lookupA cfg key)
         | none => a) := by
  intro names
  induction names with
  | nil => intro a; simp [applNames]
  | cons x xs ih =>
    intro a
    rw [List.foldl_cons, ih]
    by_cases hx : ((lookupA cfgs x).bind (fun cfg => lookupA cfg key)).isSome
    · have happ : applNames cfgs (x :: xs) key = x :: applNames cfgs xs key := by
        simp [applNames, List.filter_cons, hx]
      rw [happ]
      obtain ⟨cfg, hcfg, v, hv⟩ :
          ∃ cfg, lookupA cfgs x = some cfg ∧ ∃ v, lookupA cfg key = some v := by
        cases hc : lookupA cfgs x with
        | none => simp [hc] at hx
        | some cfg =>
          cases hv : lookupA cfg key with
          | none => simp [hc, hv] at hx
          | some v => exact ⟨cfg, rfl, v, hv⟩
      cases htail : applNames cfgs xs key with
      | nil =>
        simp only [List.getLast?_singleton]
        simp [hcfg, hv]
      | cons y ys =>
        rw [List.getLast?_cons_cons]
        cases hlast : (y :: ys).getLast? with
        | none => simp at hlast
        | some n => rfl
    · have happ : applNames cfgs (x :: xs) key = applNames cfgs xs key := by
        simp [applNames, List.filter_cons, hx]
      rw [happ]
      have hfa : (match lookupA cfgs x with
          | some cfg =>
            match lookupA cfg key with
            | some v => some v
            | none => a
          | none => a) = a := by
        cases hc : lookupA cfgs x with
        | none => rfl
        | some cfg =>
          cases hv : lookupA cfg key with
          | none => simp [hv]
          | some v => simp [hc, hv] at hx
      rw [hfa]

/-- `_resolve_with_policy` per key and name list: the value kept for a
key is the one contributed by the last applicable name of its priority
order (`none` when no name applies). -/
theorem pickByNames_spec (cfgs : List (String × Dict)) (names : List String)
    (key : String) :
    pickByNames cfgs names key
      = (match (applNames cfgs names key).getLast? with
         | some n => (lookupA cfgs n).bind (fun cfg => lookupA cfg key)
         | none => none) :=
  pickFold_eq cfgs key names none

theorem applNames_filter_known (cfgs : List (String × Dict)) (key : String) :
    ∀ names : List String,
      applNames cfgs (names.filter (fun n => (lookupA cfgs n).isSome)) key
        = applNames cfgs names key := by
  intro names
  induction names with
  | nil => rfl
  | cons x xs ih =>
    by_cases hq : (lookupA cfgs x).isSome
    · by_cases hp : ((lookupA cfgs x).bind (fun cfg => lookupA cfg key)).isSome
      · simp [applNames, List.filter_cons, hq, hp] at ih ⊢
        exact ih
      · simp [applNames, List.filter_cons, hq, hp] at ih ⊢
        exact ih
    · have hp : ((lookupA cfgs x).bind (fun cfg => lookupA cfg key)).isSome = false := by
        cases hc : lookupA cfgs x with
        | none => rfl
        | some cfg => simp [hc] at hq
      simp [applNames, List.filter_cons, hq, hp] at ih ⊢
      exact ih

theorem lookupA_policyFold (cfgs : List (String × Dict)) (pol : PriorityPolicy) :
    ∀ (keys : List String) (acc : Dict) (k : String),
      lookupA (keys.foldl (fun result key =>
          match pickByNames cfgs (getPriority pol key) key with
          | some v => setA result key v
          | none => result) acc) k
      = if k ∈ keys ∧ (pickByNames cfgs (getPriority pol k) k).isSome
        then pickByNames cfgs (getPriority pol k) k
        else lookupA acc k := by
  intro keys
  induction keys with
  | nil =>
    intro acc k
    simp
  | cons x xs ih =>
    intro acc k
    rw [List.foldl_cons, ih]
    by_cases hmem : k ∈ xs ∧ (pickByNames cfgs (getPriority pol k) k).isSome
    · rw [if_pos hmem, if_pos ⟨List.mem_cons_of_mem x hmem.1, hmem.2⟩]
    · rw [if_neg hmem]
      by_cases hxk : x = k
      · subst hxk
        cases hpick : pickByNames cfgs (getPriority pol x) x with
        | some v => simp [lookupA_setA_self]
        | none => simp
      · have hnc : ¬(k ∈ x :: xs ∧ (pickByNames cfgs (getPriority pol k) k).isSome) := by
          intro hcon
          rcases List.mem_cons.mp hcon.1 with h | h
          · exact hxk h.symm
          · exact hmem ⟨h, hcon.2⟩
        rw [if_neg hnc]
        cases hpick : pickByNames cfgs (getPriority pol x) x with
        | some v => simp [hpick, lookupA_setA_ne _ _ _ _ hxk]
        | none => simp [hpick]

theorem pick_isSome_mem_allKeys (cfgs : List (String × Dict)) (names : List String)
    (k : String) (h : (pickByNames cfgs names k).isSome = true) :
    k ∈ allKeys cfgs := by
  rw [pickByNames_spec] at h
  cases happ : (applNames cfgs names k).getLast? with
  | none => rw [happ] at h; simp at h
  | some n =>
    rw [happ] at h
    have hmem : n ∈ applNames cfgs names k := List.mem_of_getLast?_eq_some happ
    have hpred := (List.mem_filter.mp hmem).2
    cases hc : lookupA cfgs n with
    | none => simp [hc] at hpred
    | some cfg =>
      cases hv : lookupA cfg k with
      | none => simp [hc, hv] at hpred
      | some v =>
        have h1 : (n, cfg) ∈ cfgs := mem_lookupA _ _ _ hc
        have h2 : (k, v) ∈ cfg := mem_lookupA _ _ _ hv
        simp only [allKeys, List.mem_dedup, List.mem_flatten]
        refine ⟨cfg.map Prod.fst, List.mem_map.mpr ⟨(n, cfg), h1, rfl⟩, ?_⟩
        exact List.mem_map.mpr ⟨(k, v), h2, rfl⟩

/-- The policy path, per key: `resolve` holds for a key exactly what the
per-key priority walk (`pickByNames`) produces. -/
theorem lookupA_resolveWithPolicy (pol : PriorityPolicy) (srcs : List SourceM)
    (k : String) :
    lookupA (resolveWithPolicy pol srcs) k
      = pickByNames (buildConfigs srcs) (getPriority pol k) k := by
  show lookupA ((allKeys (buildConfigs srcs)).foldl _ []) k = _
  rw [lookupA_policyFold]
  by_cases hc : k ∈ allKeys (buildConfigs srcs)
      ∧ (pickByNames (buildConfigs srcs) (getPriority pol k) k).isSome
  · rw [if_pos hc]
  · rw [if_neg hc]
    cases hpick : pickByNames (buildConfigs srcs) (getPriority pol k) k with
    | none => rfl
    | some v =>
      exfalso
      exact hc ⟨pick_isSome_mem_allKeys (buildConfigs srcs) (getPriority pol k) k
        (by simp [hpick]), by simp [hpick]⟩

/-- C3: with a Priority Policy, `Resolver.resolve()` assigns every key
the value from the **last** name in the key's applicable priority-order
list that names a supplied source whose snapshot contains the key; a
name that corresponds to no supplied source is inert — filtering the
priority order down to known source names changes nothing, so unknown
names are skipped without error. -/
theorem resolve_policy_last_applicable :
    (∀ (srcs : List SourceM) (pol : PriorityPolicy) (k n : String),
        (applNames (buildConfigs srcs) (getPriority pol k) k).getLast? = some n →
        lookupA (resolve srcs (some pol)) k
          = (lookupA (buildConfigs srcs) n).bind (fun cfg => lookupA cfg k))
    ∧ (∀ (cfgs : List (String × Dict)) (names : List String) (key : String),
        pickByNames cfgs names key
          = pickByNames cfgs (names.filter (fun n => (lookupA cfgs n).isSome)) key) := by
  constructor
  · intro srcs pol k n hlast
    show lookupA (resolveWithPolicy pol srcs) k = _
    rw [lookupA_resolveWithPolicy, pickByNames_spec, hlast]
  · intro cfgs names key
    rw [pickByNames_spec, pickByNames_spec, applNames_filter_known]

/-- Witness for C3 at the spec's policy example: default order
`[defaults, env]`, override `{"secret": [defaults]}`; both sources hold
`secret`, the override's last (and only) applicable name is `defaults`,
and the resolved `secret` is `"d"`. -/
theorem resolve_policy_last_applicable_witness :
    (applNames
        (buildConfigs [SourceM.mk "defaults" [("secret", PVal.str "d")],
          SourceM.mk "env" [("secret", PVal.str "e")]])
        (getPriority (PriorityPolicy.mk ["defaults", "env"]
          (some [("secret", ["defaults"])])) "secret") "secret").getLast?
      = some "defaults"
    ∧ lookupA (resolve [SourceM.mk "defaults" [("secret", PVal.str "d")],
          SourceM.mk "env" [("secret", PVal.str "e")]]
        (some (PriorityPolicy.mk ["defaults", "env"]
          (some [("secret", ["defaults"])])))) "secret"
      = some (PVal.str "d") := by
  refine ⟨by decide, ?_⟩
  rw [resolve_policy_last_applicable.1
    [SourceM.mk "defaults" [("secret", PVal.str "d")],
      SourceM.mk "env" [("secret", PVal.str "e")]]
    (PriorityPolicy.mk ["defaults", "env"] (some [("secret", ["defaults"])]))
    "secret" "defaults" (by decide)]
  rfl

/-- C9: with a Priority Policy, a key held by some supplied source is
entirely absent from the result whenever no name of the key's priority
order corresponds to a supplied source whose snapshot contains the key;
the unnamed sources contribute nothing for that key, silently. -/
theorem resolve_policy_key_dropped (srcs : List SourceM) (pol : PriorityPolicy)
    (k : String)
    (hheld : ∃ s ∈ srcs, (lookupA s.snapshot k).isSome)
    (happ : applNames (buildConfigs srcs) (getPriority pol k) k = []) :
    lookupA (resolve srcs (some pol)) k = none := by
  show lookupA (resolveWithPolicy pol srcs) k = _
  rw [lookupA_resolveWithPolicy, pickByNames_spec, happ]
  rfl

/-- Witness for C9: the only source `env` holds `x`, but the policy
order names only `cli`, which is no supplied source — `x` is dropped. -/
theorem resolve_policy_key_dropped_witness :
    (∃ s ∈ [SourceM.mk "env" [("x", PVal.str "v")]],
        (lookupA s.snapshot "x").isSome)
    ∧ applNames (buildConfigs [SourceM.mk "env" [("x", PVal.str "v")]])
        (getPriority (PriorityPolicy.mk ["cli"] none) "x") "x" = []
    ∧ lookupA (resolve [SourceM.mk "env" [("x", PVal.str "v")]]
        (some (PriorityPolicy.mk ["cli"] none))) "x" = none :=
  ⟨⟨SourceM.mk "env" [("x", PVal.str "v")], by simp, by decide⟩, by decide,
    resolve_policy_key_dropped [SourceM.mk "env" [("x", PVal.str "v")]]
      (PriorityPolicy.mk ["cli"] none) "x"
      ⟨SourceM.mk "env" [("x", PVal.str "v")], by simp, by decide⟩ (by decide)⟩

/-! ## Model validator — `varlord/model_validation.py` -/

/-- `type(None) in get_args(...)` on an embedded type. -/
def isNoneTy : PyTy → Bool
  | .noneType => true
  | _ => false

/-- Embedding of `_is_optional_type` (src/varlord/model_validation.py,
lines 124-144): true exactly for a `Union[...]` whose arguments include
`NoneType` (which is what `Optional[T]` unfolds to); any type whose
origin is not `Union` — plain types, dataclasses — is not optional. -/
def isOptionalType : PyTy → Bool
  | .union args => args.any isNoneTy
  | _ => false

/-- One flattened field descriptor as `get_all_fields_info` produces it:
normalized dotted key plus the `required`/`optional` metadata flags. -/
structure FieldInfo : Type where
  normalizedKey : String
  required : Bool
  optional : Bool

/-- Modelled from the spec: `varlord/metadata.py` (the Schema Inspector's
`get_all_fields_info`) is not under `src/`.  Per spec §4.2, it walks the
declared fields in order; a field whose type is itself a dataclass (a
"group") recursively contributes its children's descriptors with keys
prefixed by the group's normalized name and a dot, and produces no leaf
descriptor itself; every other field yields one descriptor with its
normalized key and metadata flags. -/
def getAllFieldsInfo : List FieldDef → List FieldInfo
  | [] => []
  | (FieldDef.mk n (PyTy.dc sub) _ _) :: fs =>
    ((getAllFieldsInfo sub).map fun fi =>
      FieldInfo.mk (normalizeKey n ++ "." ++ fi.normalizedKey) fi.required fi.optional)
    ++ getAllFieldsInfo fs
  | (FieldDef.mk n _ r o) :: fs =>
    FieldInfo.mk (normalizeKey n) r o :: getAllFieldsInfo fs
termination_by l => sizeOf l
decreasing_by
  all_goals simp_wf
  all_goals omega

/-- The validator's error values: a Model Definition Error (normalized
field key, model name, reason code) or a Required Field Error (all
missing keys, model name).  The formatted message strings only render
these fields. -/
inductive VError : Type where
  | modelDef : String → String → String → VError
  | requiredMissing : List String → String → VError
deriving DecidableEq

/-- The first loop of `validate_model_definition`: scan the model's
direct fields (`fields(model)`) and raise `optional_type` at the first
field whose annotation is an optional type. -/
def optTypeCheck (mn : String) : List FieldDef → Except VError Unit
  | [] => .ok ()
  | f :: fs =>
    if isOptionalType f.ftype then
      .error (VError.modelDef (normalizeKey f.name) mn "optional_type")
    else optTypeCheck mn fs

/-- The second loop of `validate_model_definition`: scan the flattened
catalogue and raise `conflicting_metadata` or `missing_metadata` at the
first offending descriptor. -/
def metaCheck (mn : String) : List FieldInfo → Except VError Unit
  | [] => .ok ()
  | fi :: rest =>
    if fi.required && fi.optional then
      .error (VError.modelDef fi.normalizedKey mn "conflicting_metadata")
    else if !fi.required && !fi.optional then
      .error (VError.modelDef fi.normalizedKey mn "missing_metadata")
    else metaCheck mn rest

/-- Embedding of `validate_model_definition` (src/varlord/model_validation.py,
lines 147-203) for a dataclass model given as its declared field list and
name: the Optional-type scan over the direct fields runs first, then the
metadata scan over the flattened catalogue. -/
def validateModelDefinition (mn : String) (flds : List FieldDef) :
    Except VError Unit :=
  match optTypeCheck mn flds with
  | .error e => .error e
  | .ok _ => metaCheck mn (getAllFieldsInfo flds)

/-- Embedding of `validate_config` (src/varlord/model_validation.py, lines
206-257): collect, in catalogue order, the normalized keys of descriptors
marked required whose key is not in the config dict; raise a Required
Field Error carrying all of them when any is missing.  (The source-help
text only decorates the message.) -/
def validateConfig (mn : String) (flds : List FieldDef) (cfg : Dict) :
    Except VError Unit :=
  let missing := ((getAllFieldsInfo flds).filter
    (fun fi => fi.required && !(lookupA cfg fi.normalizedKey).isSome)).map
    (fun fi => fi.normalizedKey)
  if missing ≠ [] then .error (VError.requiredMissing missing mn) else .ok ()

/-- C4: `validate_config` raises a Required Field Error iff some
descriptor marked required has its normalized key absent from the value
map; the raised error lists exactly the missing required keys (all of
them); and the outcome depends only on which keys are present — a
present key satisfies its requirement whatever its value is. -/
theorem validateConfig_required_iff (mn : String) (flds : List FieldDef) (cfg : Dict) :
    ((∃ e, validateConfig mn flds cfg = Except.error e)
      ↔ ∃ fi ∈ getAllFieldsInfo flds,
          fi.required = true ∧ lookupA cfg fi.normalizedKey = none)
    ∧ (∀ (l : List String) (m : String),
        validateConfig mn flds cfg = Except.error (VError.requiredMissing l m) →
        ∀ k : String, k ∈ l ↔ ∃ fi ∈ getAllFieldsInfo flds,
          fi.normalizedKey = k ∧ fi.required = true
            ∧ lookupA cfg fi.normalizedKey = none)
    ∧ (∀ cfg' : Dict,
        (∀ k : String, (lookupA cfg k).isSome = (lookupA cfg' k).isSome) →
        validateConfig mn flds cfg = validateConfig mn flds cfg') := by
  refine ⟨?_, ?_, ?_⟩
  · unfold validateConfig
    by_cases hm : ((getAllFieldsInfo flds).filter
        (fun fi => fi.required && !(lookupA cfg fi.normalizedKey).isSome)).map
        (fun fi => fi.normalizedKey) ≠ []
    · rw [if_pos hm]
      constructor
      · intro _
        have hne : (getAllFieldsInfo flds).filter
            (fun fi => fi.required && !(lookupA cfg fi.normalizedKey).isSome) ≠ [] :=
          fun hcon => hm (by rw [hcon]; rfl)
        obtain ⟨fi, hfi⟩ := List.exists_mem_of_ne_nil _ hne
        have h1 := List.mem_filter.mp hfi
        have h2 : fi.required = true ∧ (lookupA cfg fi.normalizedKey).isSome = false := by
          have h3 := h1.2
          simp only [Bool.and_eq_true, Bool.not_eq_true'] at h3
          exact h3
        refine ⟨fi, h1.1, h2.1, ?_⟩
        cases hx : lookupA cfg fi.normalizedKey with
        | none => rfl
        | some v =>
          rw [hx] at h2
          simp at h2
      · intro _
        exact ⟨_, rfl⟩
    · rw [if_neg hm]
      push_neg at hm
      constructor
      · rintro ⟨e, he⟩
        exact absurd he (by simp)
      · rintro ⟨fi, hmem, hreq, habs⟩
        have hfin : fi ∈ (getAllFieldsInfo flds).filter
            (fun fi => fi.required && !(lookupA cfg fi.normalizedKey).isSome) :=
          List.mem_filter.mpr ⟨hmem, by simp [hreq, habs]⟩
        have hkin : fi.normalizedKey ∈ ((getAllFieldsInfo flds).filter
            (fun fi => fi.required && !(lookupA cfg fi.normalizedKey).isSome)).map
            (fun fi => fi.normalizedKey) := List.mem_map_of_mem _ hfin
        rw [hm] at hkin
        exact absurd hkin (List.not_mem_nil _)
  · intro l m hval k
    unfold validateConfig at hval
    by_cases hm : ((getAllFieldsInfo flds).filter
        (fun fi => fi.required && !(lookupA cfg fi.normalizedKey).isSome)).map
        (fun fi => fi.normalizedKey) ≠ []
    · rw [if_pos hm] at hval
      simp only [Except.error.injEq, VError.requiredMissing.injEq] at hval
      rw [← hval.1]
      constructor
      · intro hk
        obtain ⟨fi, hfi, hkey⟩ := List.mem_map.mp hk
        have h1 := List.mem_filter.mp hfi
        have h2 : fi.required = true ∧ (lookupA cfg fi.normalizedKey).isSome = false := by
          have h3 := h1.2
          simp only [Bool.and_eq_true, Bool.not_eq_true'] at h3
          exact h3
        refine ⟨fi, h1.1, hkey, h2.1, ?_⟩
        cases hx : lookupA cfg fi.normalizedKey with
        | none => rfl
        | some v =>
          rw [hx] at h2
          simp at h2
      · rintro ⟨fi, hmem, hkey, hreq, habs⟩
        exact List.mem_map.mpr ⟨fi,
          List.mem_filter.mpr ⟨hmem, by simp [hreq, habs]⟩, hkey⟩
    · rw [if_neg hm] at hval
      exact absurd hval (by simp)
  · intro cfg' hsame
    unfold validateConfig
    have hfilter : (getAllFieldsInfo flds).filter
        (fun fi => fi.required && !(lookupA cfg fi.normalizedKey).isSome)
        = (getAllFieldsInfo flds).filter
          (fun fi => fi.required && !(lookupA cfg' fi.normalizedKey).isSome) := by
      apply List.filter_congr
      intro fi _
      simp only [hsame fi.normalizedKey]
    rw [hfilter]

/-- Witness for C4 at the spec's example: schema `{a: required,
b: optional}`; the value of a present key is irrelevant, so validation
treats `{a: "x"}` and `{a: {}}` identically (and both pass). -/
theorem validateConfig_required_iff_witness :
    (∀ k : String, (lookupA [("a", PVal.str "x")] k).isSome
        = (lookupA [("a", PVal.pdict [])] k).isSome)
    ∧ validateConfig "Cfg"
        [FieldDef.mk "a" (PyTy.prim "str") true false,
          FieldDef.mk "b" (PyTy.prim "int") false true]
        [("a", PVal.str "x")]
      = validateConfig "Cfg"
        [FieldDef.mk "a" (PyTy.prim "str") true false,
          FieldDef.mk "b" (PyTy.prim "int") false true]
        [("a", PVal.pdict [])] :=
  ⟨fun k => by by_cases h : "a" = k <;> simp [lookupA, h],
    (validateConfig_required_iff "Cfg"
        [FieldDef.mk "a" (PyTy.prim "str") true false,
          FieldDef.mk "b" (PyTy.prim "int") false true]
        [("a", PVal.str "x")]).2.2
      [("a", PVal.pdict [])]
      (fun k => by by_cases h : "a" = k <;> simp [lookupA, h])⟩

/-! ## C5 — the `optional_type` rejection is not recursive -/

/-- Whether a validation outcome is a Model Definition Error with reason
`optional_type`. -/
def isOptTypeError : Except VError Unit → Bool
  | .error (VError.modelDef _ _ r) => r == "optional_type"
  | _ => false

theorem metaCheck_not_optType (mn : String) :
    ∀ infos : List FieldInfo, isOptTypeError (metaCheck mn infos) = false := by
  intro infos
  induction infos with
  | nil => rfl
  | cons fi rest ih =>
    by_cases h1 : (fi.required && fi.optional) = true
    · simp [metaCheck, h1, isOptTypeError]
    · by_cases h2 : (!fi.required && !fi.optional) = true
      · simp [metaCheck, h1, h2, isOptTypeError]
      · simpa [metaCheck, h1, h2] using ih

theorem optTypeCheck_ok (mn : String) :
    ∀ flds : List FieldDef, flds.any (fun f => isOptionalType f.ftype) = false →
      optTypeCheck mn flds = .ok () := by
  intro flds
  induction flds with
  | nil => intro _; rfl
  | cons f fs ih =>
    intro h
    simp only [List.any_cons, Bool.or_eq_false_iff] at h
    simp [optTypeCheck, h.1, ih h.2]

theorem optTypeCheck_err (mn : String) :
    ∀ flds : List FieldDef, flds.any (fun f => isOptionalType f.ftype) = true →
      ∃ k, optTypeCheck mn flds = .error (VError.modelDef k mn "optional_type") := by
  intro flds
  induction flds with
  | nil => intro h; simp at h
  | cons f fs ih =>
    intro h
    by_cases hf : isOptionalType f.ftype = true
    · exact ⟨normalizeKey f.name, by simp [optTypeCheck, hf]⟩
    · simp only [List.any_cons, hf, Bool.false_or] at h
      obtain ⟨k, hk⟩ := ih h
      exact ⟨k, by simp [optTypeCheck, hf, hk]⟩

/-- C5, counterexample: a nested schema field typed `Optional[str]`
(metadata `optional`) inside an outer model — per the claim,
`validate_model_definition` of the outer model should raise
`optional_type`; it does not: the optional-type scan looks only at the
model's direct fields, and the nested field's type is indeed an optional
shape. -/
theorem validateModelDefinition_nested_optional :
    validateModelDefinition "AppConfig"
      [FieldDef.mk "db"
        (PyTy.dc [FieldDef.mk "host"
          (PyTy.union [PyTy.prim "str", PyTy.noneType]) false true]) true false]
      = Except.ok ()
    ∧ isOptionalType (PyTy.union [PyTy.prim "str", PyTy.noneType]) = true := by
  constructor
  · simp [validateModelDefinition, optTypeCheck, metaCheck, getAllFieldsInfo,
      isOptionalType, isNoneTy, FieldDef.ftype, FieldDef.name, normalizeKey]
  · decide

/-- C5 (amended): `validate_model_definition` raises a Model Definition
Error with reason `optional_type` exactly when some **direct** field of
the model has an optional/nullable declared type — regardless of that
field's required/optional metadata; fields of nested schema types are
not inspected by the optional-type check (a nested optional-typed field
is rejected only when its own type is validated directly), while the
metadata checks do walk the flattened nested catalogue. -/
theorem validateModelDefinition_optType_iff (mn : String) (flds : List FieldDef) :
    isOptTypeError (validateModelDefinition mn flds)
      = flds.any (fun f => isOptionalType f.ftype) := by
  cases hany : flds.any (fun f => isOptionalType f.ftype) with
  | false =>
    unfold validateModelDefinition
    rw [optTypeCheck_ok mn flds hany]
    exact metaCheck_not_optType mn _
  | true =>
    obtain ⟨k, hk⟩ := optTypeCheck_err mn flds hany
    unfold validateModelDefinition
    rw [hk]
    rfl

/-! ## C6 — Config Store reload failure -/

/-- Modelled from the spec: `varlord/store.py` (the Config Store) is not
under `src/`.  Per spec §4.6, the store holds one current Resolved
Configuration and `reload()` recomputes the resolve → structural-map
pipeline; the `outcome` argument is the result of that recomputation.
On success the current pointer is swapped to the new instance; if
construction of the new instance fails, the previous configuration
remains current and the error propagates to the caller of `reload()`. -/
def storeReload {C E : Type} (current : Option C) (outcome : Except E C) :
    Option C × Except E C :=
  match outcome with
  | .ok c => (some c, .ok c)
  | .error e => (current, .error e)

/-- C6: when the recomputation behind `reload()` fails, the previously
current configuration remains current, unchanged, and the error is
returned to the caller. -/
theorem storeReload_failure {C E : Type} (current : Option C)
    (outcome : Except E C) (e : E) (h : outcome = .error e) :
    (storeReload current outcome).1 = current
    ∧ (storeReload current outcome).2 = .error e := by
  subst h
  exact ⟨rfl, rfl⟩

/-- Witness for C6 at a concrete store state and a failing outcome. -/
theorem storeReload_failure_witness :
    ((Except.error "validation failed" : Except String Nat)
        = Except.error "validation failed")
    ∧ (storeReload (some 7)
        (Except.error "validation failed" : Except String Nat)).1 = some 7
    ∧ (storeReload (some 7)
        (Except.error "validation failed" : Except String Nat)).2
      = Except.error "validation failed" :=
  ⟨rfl,
    (storeReload_failure (some 7) (Except.error "validation failed")
      "validation failed" rfl).1,
    (storeReload_failure (some 7) (Except.error "validation failed")
      "validation failed" rfl).2⟩

/-! ## Structural mapper — `Config._flatten_to_nested` (src/varlord/config.py,
lines 324-443)

The method takes a flat dict with dot-notation keys plus a dataclass
model and produces the nested structure in four passes: (1) expand
top-level dataclass instances to dicts; (2) place flat (dot-free) keys
declared on the model, coercing; (3) route dotted keys into their parent
group's dict, by recursion on the group's model; (4) turn the
accumulated group dicts into dataclass instances, coercing leaf values.
Dict mutation is embedded by threading the updated dict; `dict.copy()`
is the identity in the functional embedding. -/

/-- Modelled from the spec: `varlord/converters.py` (`convert_value`) is
not under `src/`.  Per spec §4.5, coercion is best-effort: numeric
strings convert to the declared numeric type, boolean-like strings to
bool, and conversion failure leaves the raw value in place (each call
site additionally wraps the call in `try/except` recovering to the raw
value, so the embedding is one total function). -/
def convertValue (v : PVal) (t : PyTy) : PVal :=
  match t, v with
  | PyTy.prim "int", PVal.str s =>
    match s.toInt? with
    | some n => PVal.intv n
    | none => PVal.str s
  | PyTy.prim "bool", PVal.str s =>
    if s = "true" then PVal.boolv true
    else if s = "false" then PVal.boolv false
    else PVal.str s
  | _, v => v

mutual
/-- Embedding of `dataclasses.asdict`: recursively turns a dataclass
instance into a dict, recursing into dict values as well. -/
def asdictVal : PVal → PVal
  | PVal.pdict m => PVal.pdict (asdictEntries m)
  | PVal.inst _ vals => PVal.pdict (asdictEntries vals)
  | v => v
def asdictEntries : List (String × PVal) → List (String × PVal)
  | [] => []
  | (k, v) :: rest => (k, asdictVal v) :: asdictEntries rest
end

/-- `asdict(value) if is_dataclass(type(value)) else value` — the
entry-level conversion of steps 1 and 3/4 (where a plain dict is
shallow-copied, the identity here). -/
def asdictTop : PVal → PVal
  | PVal.inst m vals => asdictVal (PVal.inst m vals)
  | v => v

/-- `key.split(".", 1)[0]`: the segment before the first dot. -/
def parentOf (key : String) : String :=
  String.mk (key.data.takeWhile (fun c => c ≠ '.'))

/-- `key.split(".", 1)[1]`: everything after the first dot (callers
guard on the key containing a dot). -/
def childOf (key : String) : String :=
  String.mk ((key.data.dropWhile (fun c => c ≠ '.')).drop 1)

/-- `field_info = {f.name: f for f in fields(model)}` plus
`key in field_info` / `field_info[key]`.  Field names of a dataclass are
unique, so first match and dict build coincide. -/
def findField (m : List FieldDef) (n : String) : Option FieldDef :=
  m.find? (fun f => f.name = n)

/-- The nested model of a declared group field: `some sub` when the
looked-up field exists and `is_dataclass(field.type)`. -/
def groupSub (model : List FieldDef) (parent : String) : Option (List FieldDef) :=
  match findField model parent with
  | some fld =>
    match fld.ftype with
    | PyTy.dc sub => some sub
    | _ => none
  | none => none

theorem groupSub_sizeOf {model : List FieldDef} {p : String}
    {sub : List FieldDef} (h : groupSub model p = some sub) :
    sizeOf sub < sizeOf model := by
  unfold groupSub at h
  cases hf : findField model p with
  | none => rw [hf] at h; simp at h
  | some fld =>
    simp only [hf] at h
    cases ht : fld.ftype with
    | dc s =>
      rw [ht] at h
      simp only [Option.some.injEq] at h
      subst h
      have h1 : fld ∈ model := List.mem_of_find?_eq_some hf
      have h2 : sizeOf fld < sizeOf model := List.sizeOf_lt_of_mem h1
      have h3 : sizeOf fld.ftype < sizeOf fld := by
        cases fld with
        | mk n t r o => simp [FieldDef.ftype]; omega
      rw [ht] at h3
      simp only [PyTy.dc.sizeOf_spec] at h3
      omega
    | prim s => rw [ht] at h; simp at h
    | noneType => rw [ht] at h; simp at h
    | union args => rw [ht] at h; simp at h

/-- Step 2 of `_flatten_to_nested`: place every dot-free key that names
a declared field, with best-effort coercion (a coercion failure keeps
the raw value, which `convertValue` already folds in). -/
def step2 (processed : Dict) (model : List FieldDef) : Dict :=
  processed.foldl
    (fun result p =>
      if p.1.data.contains '.' then result
      else
        match findField model p.1 with
        | some fld => setA result p.1 (convertValue p.2 fld.ftype)
        | none => result)
    []

/-- The initialization block of step 3: make sure `result[parent]` is a
dict, seeding it from the processed flat dict's own entry for the parent
when that entry is a dict. -/
def step3init (ap : Dict) (result : Dict) (parent : String) : Dict :=
  match lookupA result parent with
  | none =>
    match lookupA ap parent with
    | some (PVal.pdict pm) => setA result parent (PVal.pdict pm)
    | some _ => setA result parent (PVal.pdict [])
    | none => setA result parent (PVal.pdict [])
  | some (PVal.pdict _) => result
  | some _ => setA result parent (PVal.pdict [])

/-- `result[parent]`'s entry list (the init block guarantees it is a
dict; the source guards with `isinstance(result[parent_key], dict)`). -/
def dictAt (d : Dict) (k : String) : Dict :=
  match lookupA d k with
  | some (PVal.pdict pm) => pm
  | _ => []

/-- `nested_flat = {child_key: value}` then adopt every existing nested
entry whose key is not already present. -/
def buildNestedFlat (child : String) (value : PVal) (existing : Dict) : Dict :=
  existing.foldl
    (fun nf p => if (lookupA nf p.1).isSome then nf else setA nf p.1 p.2)
    [(child, value)]

/-- The write-back loop of step 3: store every recursively flattened
entry into the parent's dict, expanding dataclass instances. -/
def writeBack (pm : Dict) (nestedResult : Dict) : Dict :=
  nestedResult.foldl (fun acc p => setA acc p.1 (asdictTop p.2)) pm

/-- The per-entry coercion loop of step 4 over the recursively
flattened group dict. -/
def convertEntries (sub : List FieldDef) (l : Dict) : Dict :=
  l.map (fun p =>
    match findField sub p.1 with
    | some nf => (p.1, convertValue p.2 nf.ftype)
    | none => p)

mutual
/-- Embedding of `Config._flatten_to_nested` (src/varlord/config.py,
lines 324-443): expand instances, place flat keys, route dotted keys,
instantiate groups.  Python's `field.type(**nested_instance)` is
embedded as packaging the keyword map into an instance of the nested
model (`PVal.inst`); the constructor's own arity/type checking is the
downstream, authoritative check and is outside the mapper. -/
def flattenToNested (flat : Dict) (model : List FieldDef) : Dict :=
  let processed : Dict := flat.map (fun p => (p.1, asdictTop p.2))
  let r3 := step3 processed processed model (step2 processed model)
  step4 r3 model r3
termination_by (sizeOf model, (1 : Nat), (0 : Nat))
decreasing_by
  all_goals simp_wf
  all_goals
    first
    | (apply Prod.Lex.left
       exact groupSub_sizeOf hs)
    | (apply Prod.Lex.right
       first
       | (apply Prod.Lex.left
          omega)
       | (apply Prod.Lex.right
          omega)
       | omega)

/-- Step 3 of `_flatten_to_nested`: walk the processed entries; each
dotted key whose parent names a declared dataclass field is routed into
that parent's dict via a recursive flatten of `{child: value}` merged
with the already-accumulated entries; every other dotted key is
dropped. -/
def step3 (ap : Dict) (entries : Dict) (model : List FieldDef) (result : Dict) :
    Dict :=
  match entries with
  | [] => result
  | (key, value) :: rest =>
    if key.data.contains '.' then
      match hs : groupSub model (parentOf key) with
      | some sub =>
        let r1 := step3init ap result (parentOf key)
        let pm := dictAt r1 (parentOf key)
        let nestedFlat := buildNestedFlat (childOf key) value
          (pm.map (fun p => (p.1, asdictTop p.2)))
        let pm' := writeBack pm (flattenToNested nestedFlat sub)
        step3 ap rest model (setA r1 (parentOf key) (PVal.pdict pm'))
      | none => step3 ap rest model result
    else step3 ap rest model result
termination_by (sizeOf model, (0 : Nat), sizeOf entries)
decreasing_by
  all_goals simp_wf
  all_goals
    first
    | (apply Prod.Lex.left
       exact groupSub_sizeOf hs)
    | (apply Prod.Lex.right
       first
       | (apply Prod.Lex.left
          omega)
       | (apply Prod.Lex.right
          omega)
       | omega)

/-- Step 4 of `_flatten_to_nested`: over a snapshot of the accumulated
result, turn every declared group key holding a dict into an instance of
the nested model, recursively flattening and coercing its entries. -/
def step4 (entries : Dict) (model : List FieldDef) (result : Dict) : Dict :=
  match entries with
  | [] => result
  | (key, value) :: rest =>
    match hs : groupSub model key with
    | some sub =>
      if isPDict value then
        let valueDict := (asPDict value).map (fun p => (p.1, asdictTop p.2))
        let converted := convertEntries sub (flattenToNested valueDict sub)
        step4 rest model (setA result key (PVal.inst sub converted))
      else step4 rest model result
    | none => step4 rest model result
termination_by (sizeOf model, (0 : Nat), sizeOf entries)
decreasing_by
  all_goals simp_wf
  all_goals
    first
    | (apply Prod.Lex.left
       exact groupSub_sizeOf hs)
    | (apply Prod.Lex.right
       first
       | (apply Prod.Lex.left
          omega)
       | (apply Prod.Lex.right
          omega)
       | omega)

end

/-! ## C10 — which entries `_flatten_to_nested` keeps -/

/-- An entry of the flat value map that `_flatten_to_nested` routes
somewhere: a dot-free key declared on the model, or a dotted key whose
top-level segment names a declared dataclass field. -/
def keptKey (model : List FieldDef) (key : String) : Bool :=
  if key.data.contains '.' then (groupSub model (parentOf key)).isSome
  else (findField model key).isSome

theorem flattenToNested_eq (flat : Dict) (model : List FieldDef) :
    flattenToNested flat model
      = step4
          (step3 (flat.map fun p => (p.1, asdictTop p.2))
            (flat.map fun p => (p.1, asdictTop p.2)) model
            (step2 (flat.map fun p => (p.1, asdictTop p.2)) model))
          model
          (step3 (flat.map fun p => (p.1, asdictTop p.2))
            (flat.map fun p => (p.1, asdictTop p.2)) model
            (step2 (flat.map fun p => (p.1, asdictTop p.2)) model)) := by
  rw [flattenToNested]

theorem step3_nil (ap : Dict) (model : List FieldDef) (result : Dict) :
    step3 ap [] model result = result := by
  rw [step3]

theorem step3_cons_group (ap : Dict) (key : String) (value : PVal) (rest : Dict)
    (model : List FieldDef) (result : Dict) (sub : List FieldDef)
    (hdot : key.data.contains '.' = true)
    (hs : groupSub model (parentOf key) = some sub) :
    step3 ap ((key, value) :: rest) model result
      = step3 ap rest model
          (setA (step3init ap result (parentOf key)) (parentOf key)
            (PVal.pdict
              (writeBack (dictAt (step3init ap result (parentOf key)) (parentOf key))
                (flattenToNested
                  (buildNestedFlat (childOf key) value
                    ((dictAt (step3init ap result (parentOf key)) (parentOf key)).map
                      (fun p => (p.1, asdictTop p.2))))
                  sub)))) := by
  rw [step3]
  rw [if_pos hdot]
  split
  · rename_i sub' hs'
    rw [hs] at hs'
    injection hs' with h
    subst h
    rfl
  · rename_i hs'
    rw [hs] at hs'
    exact absurd hs' (by simp)

theorem step3_cons_flat (ap : Dict) (key : String) (value : PVal) (rest : Dict)
    (model : List FieldDef) (result : Dict)
    (hdot : key.data.contains '.' = false) :
    step3 ap ((key, value) :: rest) model result = step3 ap rest model result := by
  rw [step3]
  rw [if_neg (by rw [hdot]; simp)]

theorem step3_cons_nogroup (ap : Dict) (key : String) (value : PVal) (rest : Dict)
    (model : List FieldDef) (result : Dict)
    (hdot : key.data.contains '.' = true)
    (hs : groupSub model (parentOf key) = none) :
    step3 ap ((key, value) :: rest) model result = step3 ap rest model result := by
  rw [step3]
  rw [if_pos hdot]
  split
  · rename_i sub' hs'
    rw [hs] at hs'
    exact absurd hs' (by simp)
  · rfl

theorem step4_nil (model : List FieldDef) (result : Dict) :
    step4 [] model result = result := by
  rw [step4]

theorem step4_cons_group (key : String) (value : PVal) (rest : Dict)
    (model : List FieldDef) (result : Dict) (sub : List FieldDef)
    (hs : groupSub model key = some sub)
    (hv : isPDict value = true) :
    step4 ((key, value) :: rest) model result
      = step4 rest model
          (setA result key
            (PVal.inst sub
              (convertEntries sub
                (flattenToNested
                  ((asPDict value).map (fun p => (p.1, asdictTop p.2))) sub)))) := by
  rw [step4]
  split
  · rename_i sub' hs'
    rw [hs] at hs'
    injection hs' with h
    subst h
    rw [if_pos hv]
  · rename_i hs'
    rw [hs] at hs'
    exact absurd hs' (by simp)

theorem step4_cons_nodict (key : String) (value : PVal) (rest : Dict)
    (model : List FieldDef) (result : Dict) (sub : List FieldDef)
    (hs : groupSub model key = some sub)
    (hv : isPDict value = false) :
    step4 ((key, value) :: rest) model result = step4 rest model result := by
  rw [step4]
  split
  all_goals try rfl
  all_goals
    (rename_i sub' hs'
     rw [hs] at hs'
     injection hs' with h
     subst h
     rw [if_neg (by rw [hv]; simp)])

theorem step4_cons_nogroup (key : String) (value : PVal) (rest : Dict)
    (model : List FieldDef) (result : Dict)
    (hs : groupSub model key = none) :
    step4 ((key, value) :: rest) model result = step4 rest model result := by
  rw [step4]
  split
  · rename_i sub' hs'
    rw [hs] at hs'
    exact absurd hs' (by simp)
  · rfl

theorem foldl_filter_of_inert {α β : Type} (f : β → α → β) (q : α → Bool)
    (h : ∀ p, q p = false → ∀ acc, f acc p = acc) :
    ∀ (l : List α) (a : β), (l.filter q).foldl f a = l.foldl f a := by
  intro l
  induction l with
  | nil => intro a; rfl
  | cons x xs ih =>
    intro a
    by_cases hx : q x = true
    · rw [List.filter_cons_of_pos hx, List.foldl_cons, List.foldl_cons, ih]
    · have hx' : q x = false := by simpa using hx
      rw [List.filter_cons_of_neg (by simp [hx']), List.foldl_cons, h x hx' a, ih]

theorem lookupA_filter_of_kept {α : Type} (q : String × α → Bool)
    (l : List (String × α)) (k : String) (h : ∀ v, q (k, v) = true) :
    lookupA (l.filter q) k = lookupA l k := by
  induction l with
  | nil => rfl
  | cons hd tl ih =>
    obtain ⟨k0, v0⟩ := hd
    by_cases hk : k0 = k
    · subst hk
      rw [List.filter_cons_of_pos (h v0)]
      simp [lookupA]
    · by_cases hq : q (k0, v0) = true
      · rw [List.filter_cons_of_pos hq]
        simp [lookupA, hk, ih]
      · rw [List.filter_cons_of_neg (by simpa using hq)]
        simp [lookupA, hk, ih]

theorem parentOf_no_dot (key : String) :
    (parentOf key).data.contains '.' = false := by
  show (key.data.takeWhile (fun c => c ≠ '.')).contains '.' = false
  cases hc : (key.data.takeWhile (fun c => c ≠ '.')).contains '.' with
  | false => rfl
  | true =>
    exfalso
    have hmem : '.' ∈ key.data.takeWhile (fun c => c ≠ '.') := by
      simpa using hc
    have := List.mem_takeWhile_imp hmem
    simp at this

theorem findField_isSome_of_groupSub {model : List FieldDef} {p : String}
    {sub : List FieldDef} (h : groupSub model p = some sub) :
    (findField model p).isSome = true := by
  unfold groupSub at h
  cases hf : findField model p with
  | none => rw [hf] at h; simp at h
  | some fld => simp

theorem keptKey_parentOf {model : List FieldDef} {key : String}
    {sub : List FieldDef} (hsub : groupSub model (parentOf key) = some sub) :
    keptKey model (parentOf key) = true := by
  unfold keptKey
  rw [parentOf_no_dot]
  simp only [Bool.false_eq_true, if_false]
  exact findField_isSome_of_groupSub hsub

theorem step2_filter (model : List FieldDef) (processed : Dict) :
    step2 (processed.filter (fun p => keptKey model p.1)) model
      = step2 processed model := by
  unfold step2
  apply foldl_filter_of_inert
  intro p hp acc
  by_cases hdot : p.1.data.contains '.' = true
  · rw [if_pos hdot]
  · have hd : p.1.data.contains '.' = false := by simpa using hdot
    unfold keptKey at hp
    rw [if_neg (by rw [hd]; simp)] at hp
    rw [if_neg (by rw [hd]; simp)]
    cases hf : findField model p.1 with
    | none => rfl
    | some fld => rw [hf] at hp; simp at hp

theorem step3init_filter (model : List FieldDef) (ap : Dict) (result : Dict)
    (parent : String) (hkept : keptKey model parent = true) :
    step3init (ap.filter (fun p => keptKey model p.1)) result parent
      = step3init ap result parent := by
  unfold step3init
  rw [lookupA_filter_of_kept _ ap parent (fun _ => hkept)]

theorem step3_filter (model : List FieldDef) (ap : Dict) :
    ∀ (entries : Dict) (result : Dict),
      step3 (ap.filter (fun p => keptKey model p.1))
        (entries.filter (fun p => keptKey model p.1)) model result
        = step3 ap entries model result := by
  intro entries
  induction entries with
  | nil => intro result; rw [List.filter_nil, step3_nil, step3_nil]
  | cons e rest ih =>
    obtain ⟨key, value⟩ := e
    intro result
    by_cases hkept : keptKey model key = true
    · rw [List.filter_cons, if_pos hkept]
      by_cases hdot : key.data.contains '.' = true
      · have hgs : (groupSub model (parentOf key)).isSome = true := by
          unfold keptKey at hkept
          rw [if_pos hdot] at hkept
          exact hkept
        obtain ⟨sub, hsub⟩ := Option.isSome_iff_exists.mp hgs
        rw [step3_cons_group _ _ _ _ _ _ sub hdot hsub,
          step3_cons_group _ _ _ _ _ _ sub hdot hsub,
          step3init_filter model ap result (parentOf key) (keptKey_parentOf hsub),
          ih]
      · have hd : key.data.contains '.' = false := by simpa using hdot
        rw [step3_cons_flat _ _ _ _ _ _ hd, step3_cons_flat _ _ _ _ _ _ hd, ih]
    · have hk : keptKey model key = false := by simpa using hkept
      rw [List.filter_cons, if_neg (by simp [hk])]
      by_cases hdot : key.data.contains '.' = true
      · have hgs : groupSub model (parentOf key) = none := by
          unfold keptKey at hk
          rw [if_pos hdot] at hk
          cases hg : groupSub model (parentOf key) with
          | none => rfl
          | some s => rw [hg] at hk; simp at hk
        rw [step3_cons_nogroup _ _ _ _ _ _ hdot hgs, ih]
      · have hd : key.data.contains '.' = false := by simpa using hdot
        rw [step3_cons_flat _ _ _ _ _ _ hd, ih]

theorem flattenToNested_filter (model : List FieldDef) (flat : Dict) :
    flattenToNested (flat.filter (fun p => keptKey model p.1)) model
      = flattenToNested flat model := by
  rw [flattenToNested_eq, flattenToNested_eq]
  have hmap : (flat.filter (fun p => keptKey model p.1)).map
        (fun p => (p.1, asdictTop p.2))
      = (flat.map (fun p => (p.1, asdictTop p.2))).filter
        (fun p => keptKey model p.1) := by
    induction flat with
    | nil => rfl
    | cons p ps ih =>
      by_cases h : keptKey model p.1 = true
      · simp only [List.filter_cons, List.map_cons, h, if_true, List.map_cons, ih]
      · have h' : keptKey model p.1 = false := by simpa using h
        simp only [List.filter_cons, List.map_cons, h', Bool.false_eq_true,
          if_false, ih]
  rw [hmap, step2_filter, step3_filter]

/-! The keys the mapper ever writes are declared field names. -/

theorem setA_all {α : Type} (q : String × α → Bool) (d : List (String × α))
    (k : String) (v : α) (hd : d.all q = true) (hk : q (k, v) = true) :
    (setA d k v).all q = true := by
  induction d with
  | nil => simpa [setA]
  | cons hd0 tl ih =>
    obtain ⟨k0, w⟩ := hd0
    simp only [List.all_cons, Bool.and_eq_true] at hd
    by_cases h0 : k0 = k
    · subst h0
      simp [setA, hk, hd.2]
    · simp [setA, h0, hd.1, ih hd.2]

theorem step2_all (model : List FieldDef) (processed : Dict) :
    (step2 processed model).all (fun p => (findField model p.1).isSome) = true := by
  unfold step2
  suffices h : ∀ (l : Dict) (acc : Dict),
      acc.all (fun p => (findField model p.1).isSome) = true →
      (l.foldl (fun result p =>
        if p.1.data.contains '.' then result
        else
          match findField model p.1 with
          | some fld => setA result p.1 (convertValue p.2 fld.ftype)
          | none => result) acc).all (fun p => (findField model p.1).isSome) = true by
    exact h processed [] rfl
  intro l
  induction l with
  | nil => intro acc hacc; exact hacc
  | cons p ps ih =>
    intro acc hacc
    rw [List.foldl_cons]
    apply ih
    by_cases hdot : p.1.data.contains '.' = true
    · rw [if_pos hdot]
      exact hacc
    · have hd : p.1.data.contains '.' = false := by simpa using hdot
      rw [if_neg (by rw [hd]; simp)]
      cases hf : findField model p.1 with
      | none => exact hacc
      | some fld => exact setA_all _ acc p.1 _ hacc (by simp [hf])

theorem step3init_all (model : List FieldDef) (ap : Dict) (result : Dict)
    (parent : String) (hp : (findField model parent).isSome = true)
    (hres : result.all (fun p => (findField model p.1).isSome) = true) :
    (step3init ap result parent).all (fun p => (findField model p.1).isSome)
      = true := by
  unfold step3init
  cases lookupA result parent with
  | none =>
    cases lookupA ap parent with
    | none => exact setA_all _ result parent _ hres (by simp [hp])
    | some v => cases v <;> exact setA_all _ result parent _ hres (by simp [hp])
  | some v =>
    cases v <;> first
      | exact hres
      | exact setA_all _ result parent _ hres (by simp [hp])

theorem step3_all (model : List FieldDef) (ap : Dict) :
    ∀ (entries : Dict) (result : Dict),
      result.all (fun p => (findField model p.1).isSome) = true →
      (step3 ap entries model result).all
        (fun p => (findField model p.1).isSome) = true := by
  intro entries
  induction entries with
  | nil => intro result hres; rw [step3_nil]; exact hres
  | cons e rest ih =>
    obtain ⟨key, value⟩ := e
    intro result hres
    by_cases hdot : key.data.contains '.' = true
    · cases hg : groupSub model (parentOf key) with
      | some sub =>
        rw [step3_cons_group _ _ _ _ _ _ sub hdot hg]
        apply ih
        apply setA_all _ _ _ _
          (step3init_all model ap result (parentOf key)
            (findField_isSome_of_groupSub hg) hres)
        simp [findField_isSome_of_groupSub hg]
      | none =>
        rw [step3_cons_nogroup _ _ _ _ _ _ hdot hg]
        exact ih result hres
    · have hd : key.data.contains '.' = false := by simpa using hdot
      rw [step3_cons_flat _ _ _ _ _ _ hd]
      exact ih result hres

theorem step4_all (model : List FieldDef) :
    ∀ (entries : Dict) (result : Dict),
      result.all (fun p => (findField model p.1).isSome) = true →
      (step4 entries model result).all
        (fun p => (findField model p.1).isSome) = true := by
  intro entries
  induction entries with
  | nil => intro result hres; rw [step4_nil]; exact hres
  | cons e rest ih =>
    obtain ⟨key, value⟩ := e
    intro result hres
    cases hg : groupSub model key with
    | some sub =>
      by_cases hv : isPDict value = true
      · rw [step4_cons_group _ _ _ _ _ sub hg hv]
        apply ih
        exact setA_all _ result key _ hres
          (by simp [findField_isSome_of_groupSub hg])
      · rw [step4_cons_nodict _ _ _ _ _ sub hg (by simpa using hv)]
        exact ih result hres
    | none =>
      rw [step4_cons_nogroup _ _ _ _ _ hg]
      exact ih result hres

theorem flattenToNested_all (model : List FieldDef) (flat : Dict) :
    (flattenToNested flat model).all
      (fun p => (findField model p.1).isSome) = true := by
  rw [flattenToNested_eq]
  exact step4_all model _ _ (step3_all model _ _ _ (step2_all model _))

theorem lookupA_eq_none_of_all {α : Type} (q : String × α → Bool)
    (d : List (String × α)) (k : String) (hall : d.all q = true)
    (hk : ∀ v, q (k, v) = false) : lookupA d k = none := by
  cases hl : lookupA d k with
  | none => rfl
  | some v =>
    have hmem := mem_lookupA d k v hl
    have h1 := List.all_eq_true.mp hall _ hmem
    rw [hk v] at h1
    simp at h1

/-- C10: `Config._flatten_to_nested` silently drops every flat-dict
entry whose top-level dotted segment does not name a declared field of
the target dataclass, and every dotted entry whose parent field's
declared type is not itself a dataclass: the result is exactly what it
would be had those entries never been in the input (so they appear
nowhere in the returned nested structure and cannot cause an error),
and every top-level key the mapper returns names a declared field. -/
theorem flattenToNested_drops_undeclared :
    (∀ (model : List FieldDef) (flat : Dict),
        flattenToNested (flat.filter (fun p => keptKey model p.1)) model
          = flattenToNested flat model)
    ∧ (∀ (model : List FieldDef) (flat : Dict) (k : String),
        findField model k = none →
        lookupA (flattenToNested flat model) k = none) := by
  refine ⟨flattenToNested_filter, ?_⟩
  intro model flat k hk
  exact lookupA_eq_none_of_all _ _ k (flattenToNested_all model flat)
    (fun v => by simp [hk])

/-- Witness for C10: the model declares only `a`, so the undeclared
`junk` entry appears nowhere in the mapped result. -/
theorem flattenToNested_drops_undeclared_witness :
    findField [FieldDef.mk "a" (PyTy.prim "str") true false] "junk" = none
    ∧ lookupA (flattenToNested [("junk", PVal.str "x"), ("a", PVal.str "v")]
        [FieldDef.mk "a" (PyTy.prim "str") true false]) "junk" = none :=
  ⟨rfl, flattenToNested_drops_undeclared.2
    [FieldDef.mk "a" (PyTy.prim "str") true false]
    [("junk", PVal.str "x"), ("a", PVal.str "v")] "junk" rfl⟩

end Varlord
